import Mathlib

/-!
Verification of the tiktorch shape-negotiation (dry-run) engine and model
adapters against their specification.

The definitions below are a shallow embedding of
`tiktorch/handler/dryrun.py`, `tiktorch/server/model_adapter/_exemplum.py`,
`tiktorch/server/model_adapter/_tensorflow_model_adapter.py`.

Modelling conventions:
* Shapes handed to `find_one_shape` (numpy arrays of extents in the Python
  code) are `List ℕ`; the entries stay non-negative throughout the search,
  which is proved below rather than assumed.
* Python float arithmetic on the `discard` fraction is modelled by exact
  rational arithmetic (`ℚ`), and Python `int(...)` (truncation toward zero)
  by `truncQ`.
* Device execution happens in subprocesses in the Python code; its
  observable outcome (an exception or the output tensor's shape) enters the
  embedding as an oracle function supplied per device.
* The worker loop's bounded fuel equals the initial total slack plus one;
  the fuel-stability theorem for claim C8 shows this bound is exact, so the
  fuel is an embedding artifact, not a behavioural change.
-/

namespace Tiktorch

/-- Python `int(q)`: truncation toward zero. -/
def truncQ (q : ℚ) : ℤ := if q < 0 then ⌈q⌉ else ⌊q⌋

/-- Slack update of `find_one_shape` (dryrun.py:452):
`reduced = int((1.0 - discard) * nonzero[diff_i] - 1)`.
The rational `(1 - discard) * n - 1` equals
`((den - num) * n - den) / den` over `discard`'s reduced fraction, and
Python `int(...)` is truncation toward zero, i.e. `Int.tdiv` by the
positive denominator; `reduceSlack_eq_truncQ` below proves this definition
equal to the directly transcribed formula `truncQ ((1 - discard) * n - 1)`.
(The kernel-computable form is used so that concrete runs of
`find_one_shape` can be checked by `decide`.) -/
def reduceSlack (discard : ℚ) (n : ℕ) : ℕ :=
  ((((discard.den : ℤ) - discard.num) * n - discard.den).tdiv discard.den).toNat

/-- `truncQ` of an integer divided by a positive natural is truncating
division. -/
theorem truncQ_intCast_div (a : ℤ) (b : ℕ) (hb : 0 < b) :
    truncQ ((a : ℚ) / (b : ℚ)) = a.tdiv b := by
  have hbQ : (0 : ℚ) < (b : ℚ) := by exact_mod_cast hb
  have hbZ : (0 : ℤ) ≤ (b : ℤ) := by exact_mod_cast Nat.zero_le b
  rcases le_or_lt 0 a with ha | ha
  · have hq : (0 : ℚ) ≤ (a : ℚ) / (b : ℚ) := by
      apply div_nonneg _ hbQ.le
      exact_mod_cast ha
    rw [truncQ, if_neg (not_lt.mpr hq), Rat.floor_intCast_div_natCast,
      Int.tdiv_eq_ediv ha hbZ]
  · have hq : (a : ℚ) / (b : ℚ) < 0 := by
      apply div_neg_of_neg_of_pos _ hbQ
      exact_mod_cast ha
    rw [truncQ, if_pos hq]
    have hceil : ⌈(a : ℚ) / (b : ℚ)⌉ = -⌊(-a : ℤ) / (b : ℚ)⌋ := by
      rw [← neg_inj, ← Int.floor_neg, ← neg_div]
      push_cast
      ring_nf
    rw [hceil, Rat.floor_intCast_div_natCast]
    have h1 : (-a).tdiv (b : ℤ) = -a / (b : ℤ) := Int.tdiv_eq_ediv (by omega) hbZ
    have h2 : (-a).tdiv (b : ℤ) = -(a.tdiv (b : ℤ)) := Int.neg_tdiv a b
    omega

/-- The slack value `(1 - discard) * n - 1` as a single integer fraction. -/
theorem slack_as_div (d : ℚ) (n : ℕ) :
    (1 - d) * (n : ℚ) - 1 =
      ((((d.den : ℤ) - d.num) * n - d.den : ℤ) : ℚ) / (d.den : ℚ) := by
  have hden : ((d.den : ℚ)) ≠ 0 := by
    exact_mod_cast d.den_ne_zero
  have hnum : (d.num : ℚ) = d * (d.den : ℚ) := (div_eq_iff hden).mp (Rat.num_div_den d)
  rw [eq_div_iff hden]
  push_cast
  linear_combination (n : ℚ) * hnum

/-- `reduceSlack` is the source formula
`int((1.0 - discard) * old_slack - 1)` (truncation toward zero of the exact
rational value). -/
theorem reduceSlack_eq_truncQ (d : ℚ) (n : ℕ) :
    reduceSlack d n = (truncQ ((1 - d) * (n : ℚ) - 1)).toNat := by
  rw [reduceSlack, slack_as_div, truncQ_intCast_div _ _ d.den_pos]

/-- The spec's slack-update formula, stated in its own words:
`new_slack = floor((1 - discard) * old_slack) - 1`.  Kept separate from
`reduceSlack` (the code's formula) so the two can be compared. -/
def specSlackUpdate (discard : ℚ) (n : ℕ) : ℤ :=
  ⌊(1 - discard) * n⌋ - 1

/-- `diff.nonzero()[0]` (dryrun.py:434): indices of nonzero entries,
ascending. -/
def nonzeroIdx (diff : List ℕ) : List ℕ :=
  (List.range diff.length).filter (fun i => diff.getD i 0 ≠ 0)

/-- Ordering used by `numpy.argsort(nonzero)[::-1]` (dryrun.py:446):
index `i` comes before index `j` iff `i`'s slack is larger, ties broken
toward the larger index (reversal of a stable ascending sort). -/
def slackBefore (diff : List ℕ) (i j : ℕ) : Bool :=
  diff.getD j 0 < diff.getD i 0 ∨ (diff.getD i 0 = diff.getD j 0 ∧ j < i)

/-- Insertion into a list sorted by `slackBefore`. -/
def insertDesc (diff : List ℕ) (x : ℕ) : List ℕ → List ℕ
  | [] => [x]
  | y :: ys => if slackBefore diff x y then x :: y :: ys else y :: insertDesc diff x ys

/-- Insertion sort by `slackBefore`. -/
def sortDesc (diff : List ℕ) : List ℕ → List ℕ
  | [] => []
  | x :: xs => insertDesc diff x (sortDesc diff xs)

/-- `search_order` of one pass of `find_one_shape` (dryrun.py:446): the
free (nonzero-slack) dimensions, largest slack first. -/
def searchOrder (diff : List ℕ) : List ℕ :=
  sortDesc diff (nonzeroIdx diff)

/-- One ordered pass of `find_one_shape` (dryrun.py:447-453): for each free
dimension in order, test the candidate `lower + diff`; on success return it,
otherwise shrink that dimension's slack and continue.  Within a pass every
listed index is distinct (numpy argsort enumerates distinct positions), so
the pass-start slack `nonzero[diff_i]` read by the Python code equals the
current entry `diff.getD i 0` read here. -/
def passStep (valid : List ℕ → Bool) (lower : List ℕ) (discard : ℚ) :
    List ℕ → List ℕ → Option (List ℕ) × List ℕ
  | [], diff => (none, diff)
  | i :: rest, diff =>
    let cand := List.zipWith (· + ·) lower diff
    if valid cand then (some cand, diff)
    else passStep valid lower discard rest (diff.set i (reduceSlack discard (diff.getD i 0)))

/-- The `while ndiff:` loop of `find_one_shape` (dryrun.py:445-455), with
explicit fuel.  `find_one_shape` instantiates the fuel with the initial
total slack plus one, which is proved sufficient below. -/
def findLoopFuel (valid : List ℕ → Bool) (lower : List ℕ) (discard : ℚ) :
    ℕ → List ℕ → Option (List ℕ)
  | 0, _ => none
  | fuel + 1, diff =>
    if searchOrder diff = [] then none
    else
      match passStep valid lower discard (searchOrder diff) diff with
      | (some s, _) => some s
      | (none, diff') => findLoopFuel valid lower discard fuel diff'

/-- `DryRunProcess.find_one_shape` (dryrun.py:415-457) over an abstract
validity probe `valid` (the probe is `validate_shape`, which runs the model
on devices; only its boolean verdict is observable to the search). -/
def find_one_shape (valid : List ℕ → Bool) (lower upper : List ℕ) (discard : ℚ) :
    Option (List ℕ) :=
  let diff := List.zipWith (fun u l => u - l) upper lower
  findLoopFuel valid lower discard (diff.sum + 1) diff

/-! Bounds on the slack update. -/

/-- For `0 ≤ discard < 1` the slack update strictly decreases a positive
slack. -/
theorem reduceSlack_lt (d : ℚ) (hd0 : 0 ≤ d) (hd1 : d < 1) (n : ℕ) (hn : 1 ≤ n) :
    reduceSlack d n < n := by
  rw [reduceSlack_eq_truncQ]
  set q : ℚ := (1 - d) * (n : ℚ) - 1 with hq
  have hnQ : (1 : ℚ) ≤ (n : ℚ) := by exact_mod_cast hn
  have hub : q ≤ (n : ℚ) - 1 := by
    have h1 : (1 - d) * (n : ℚ) ≤ 1 * (n : ℚ) := by
      apply mul_le_mul_of_nonneg_right _ (by linarith)
      linarith
    simpa [hq] using by linarith
  have hlb : -1 < q := by
    have h1 : 0 < (1 - d) * (n : ℚ) := by
      apply mul_pos (by linarith) (by linarith)
    simp only [hq]
    linarith
  rcases lt_or_le q 0 with hneg | hpos
  · rw [truncQ, if_pos hneg]
    have : ⌈q⌉ ≤ 0 := by
      rw [Int.ceil_le]
      push_cast
      linarith
    omega
  · rw [truncQ, if_neg (not_lt.mpr hpos)]
    have h1 : ⌊q⌋ ≤ ⌊(n : ℚ) - 1⌋ := Int.floor_le_floor hub
    have h2 : ⌊(n : ℚ) - 1⌋ = (n : ℤ) - 1 := by
      rw [show ((n : ℚ) - 1) = (((n : ℤ) - 1 : ℤ) : ℚ) by push_cast; ring]
      exact Int.floor_intCast _
    omega

/-- For `0 ≤ discard < 1` the slack update never increases the slack. -/
theorem reduceSlack_le (d : ℚ) (hd0 : 0 ≤ d) (hd1 : d < 1) (n : ℕ) :
    reduceSlack d n ≤ n := by
  rcases Nat.eq_zero_or_pos n with h0 | h1
  · subst h0
    rw [reduceSlack_eq_truncQ]
    have : (1 - d) * ((0 : ℕ) : ℚ) - 1 = -1 := by push_cast; ring
    rw [this]
    rw [show truncQ (-1) = -1 by
      rw [truncQ, if_pos (by norm_num),
        show ((-1 : ℚ)) = (((-1 : ℤ)) : ℚ) by norm_num, Int.ceil_intCast]]
    rfl
  · exact (reduceSlack_lt d hd0 hd1 n h1).le

/-! Helper lemmas about `List.set`, `List.getD` and `List.zipWith`. -/

theorem getD_set_self {l : List ℕ} {i : ℕ} (h : i < l.length) (v : ℕ) :
    (l.set i v).getD i 0 = v := by
  induction l generalizing i with
  | nil => simp at h
  | cons a t ih =>
    cases i with
    | zero => simp [List.set]
    | succ j =>
      simp only [List.set, List.getD_cons_succ]
      exact ih (by simpa using h)

theorem getD_set_ne {l : List ℕ} {i j : ℕ} (h : i ≠ j) (v : ℕ) :
    (l.set i v).getD j 0 = l.getD j 0 := by
  induction l generalizing i j with
  | nil => simp [List.set]
  | cons a t ih =>
    cases i with
    | zero =>
      cases j with
      | zero => exact absurd rfl h
      | succ k => simp [List.set]
    | succ i' =>
      cases j with
      | zero => simp [List.set]
      | succ k =>
        simp only [List.set, List.getD_cons_succ]
        have hik : i' ≠ k := by omega
        exact ih hik

theorem sum_set_le {l : List ℕ} {i v : ℕ} (hv : v ≤ l.getD i 0) :
    (l.set i v).sum ≤ l.sum := by
  induction l generalizing i with
  | nil => simp [List.set]
  | cons a t ih =>
    cases i with
    | zero =>
      simp only [List.getD_cons_zero] at hv
      simp only [List.set, List.sum_cons]
      omega
    | succ j =>
      simp only [List.getD_cons_succ] at hv
      simp only [List.set, List.sum_cons]
      have := ih (i := j) hv
      omega

theorem sum_set_lt {l : List ℕ} {i v : ℕ} (hi : i < l.length) (hv : v < l.getD i 0) :
    (l.set i v).sum < l.sum := by
  induction l generalizing i with
  | nil => simp at hi
  | cons a t ih =>
    cases i with
    | zero =>
      simp only [List.getD_cons_zero] at hv
      simp only [List.set, List.sum_cons]
      omega
    | succ j =>
      simp only [List.getD_cons_succ] at hv
      simp only [List.set, List.sum_cons]
      have := ih (i := j) (by simpa using hi) hv
      omega

theorem getD_zipWith_add {a b : List ℕ} {i : ℕ} (ha : i < a.length)
    (hb : i < b.length) :
    (List.zipWith (· + ·) a b).getD i 0 = a.getD i 0 + b.getD i 0 := by
  induction a generalizing b i with
  | nil => simp at ha
  | cons x t ih =>
    cases b with
    | nil => simp at hb
    | cons y u =>
      cases i with
      | zero => simp
      | succ j =>
        simp only [List.zipWith_cons_cons, List.getD_cons_succ]
        exact ih (by simpa using ha) (by simpa using hb)

/-- Adding back the elementwise difference recovers the upper bound. -/
theorem zipWith_add_sub {lower upper : List ℕ} (hlen : lower.length = upper.length)
    (hle : ∀ i, i < lower.length → lower.getD i 0 ≤ upper.getD i 0) :
    List.zipWith (· + ·) lower (List.zipWith (fun u l => u - l) upper lower) = upper := by
  induction lower generalizing upper with
  | nil =>
    cases upper with
    | nil => rfl
    | cons y u => simp at hlen
  | cons x t ih =>
    cases upper with
    | nil => simp at hlen
    | cons y u =>
      have h0 := hle 0 (by simp)
      simp only [List.getD_cons_zero] at h0
      simp only [List.zipWith_cons_cons]
      congr 1
      · omega
      · apply ih (by simpa using hlen)
        intro i hi
        have := hle (i + 1) (by simpa using Nat.succ_lt_succ hi)
        simpa using this

/-! Facts about the search order. -/

theorem insertDesc_perm (diff : List ℕ) (x : ℕ) (l : List ℕ) :
    (insertDesc diff x l).Perm (x :: l) := by
  induction l with
  | nil => exact List.Perm.refl _
  | cons y ys ih =>
    rw [insertDesc]
    by_cases h : slackBefore diff x y
    · rw [if_pos h]
    · rw [if_neg h]
      exact (List.Perm.cons y ih).trans (List.Perm.swap x y ys)

theorem sortDesc_perm (diff : List ℕ) (l : List ℕ) : (sortDesc diff l).Perm l := by
  induction l with
  | nil => exact List.Perm.refl _
  | cons x xs ih =>
    rw [sortDesc]
    exact (insertDesc_perm diff x (sortDesc diff xs)).trans (List.Perm.cons x ih)

theorem mem_nonzeroIdx {diff : List ℕ} {i : ℕ} :
    i ∈ nonzeroIdx diff ↔ i < diff.length ∧ diff.getD i 0 ≠ 0 := by
  rw [nonzeroIdx, List.mem_filter, List.mem_range]
  simp

theorem mem_searchOrder {diff : List ℕ} {i : ℕ} :
    i ∈ searchOrder diff ↔ i < diff.length ∧ diff.getD i 0 ≠ 0 := by
  rw [searchOrder, (sortDesc_perm diff (nonzeroIdx diff)).mem_iff, mem_nonzeroIdx]

theorem searchOrder_nodup (diff : List ℕ) : (searchOrder diff).Nodup := by
  rw [searchOrder]
  exact ((sortDesc_perm diff (nonzeroIdx diff)).nodup_iff).mpr
    (List.Nodup.filter _ (List.nodup_range _))

theorem searchOrder_eq_nil_iff {diff : List ℕ} :
    searchOrder diff = [] ↔ ∀ i, i < diff.length → diff.getD i 0 = 0 := by
  constructor
  · intro h i hi
    by_contra hne
    have : i ∈ searchOrder diff := mem_searchOrder.mpr ⟨hi, hne⟩
    rw [h] at this
    simp at this
  · intro h
    rw [List.eq_nil_iff_forall_not_mem]
    intro i hi
    rcases mem_searchOrder.mp hi with ⟨h1, h2⟩
    exact h2 (h i h1)

/-! Facts about one pass. -/

theorem set_out_of_range {l : List ℕ} {i : ℕ} (h : l.length ≤ i) (v : ℕ) :
    l.set i v = l := by
  induction l generalizing i with
  | nil => rfl
  | cons a t ih =>
    cases i with
    | zero => simp at h
    | succ j =>
      simp only [List.set]
      rw [ih (by simpa using h)]

theorem set_reduce_getD_le {d : ℚ} (hd0 : 0 ≤ d) (hd1 : d < 1) (l : List ℕ)
    (i j : ℕ) :
    (l.set i (reduceSlack d (l.getD i 0))).getD j 0 ≤ l.getD j 0 := by
  rcases Nat.lt_or_ge i l.length with hi | hi
  · rcases eq_or_ne i j with rfl | hne
    · rw [getD_set_self hi]
      exact reduceSlack_le d hd0 hd1 _
    · rw [getD_set_ne hne]
  · rw [set_out_of_range hi]

theorem passStep_snd_length (valid : List ℕ → Bool) (lower : List ℕ) (d : ℚ) :
    ∀ order diff, ((passStep valid lower d order diff).2).length = diff.length := by
  intro order
  induction order with
  | nil => intro diff; rfl
  | cons i rest ih =>
    intro diff
    rw [passStep]
    cases h : valid (List.zipWith (· + ·) lower diff) with
    | true => rw [if_pos rfl]
    | false =>
      rw [if_neg Bool.false_ne_true, ih]
      exact List.length_set ..

theorem passStep_snd_getD_le {d : ℚ} (hd0 : 0 ≤ d) (hd1 : d < 1)
    (valid : List ℕ → Bool) (lower : List ℕ) :
    ∀ order diff j, ((passStep valid lower d order diff).2).getD j 0 ≤ diff.getD j 0 := by
  intro order
  induction order with
  | nil => intro diff j; exact le_refl _
  | cons i rest ih =>
    intro diff j
    rw [passStep]
    cases h : valid (List.zipWith (· + ·) lower diff) with
    | true => rw [if_pos rfl]
    | false =>
      rw [if_neg Bool.false_ne_true]
      exact (ih _ j).trans (set_reduce_getD_le hd0 hd1 diff i j)

theorem passStep_snd_sum_le {d : ℚ} (hd0 : 0 ≤ d) (hd1 : d < 1)
    (valid : List ℕ → Bool) (lower : List ℕ) :
    ∀ order diff, ((passStep valid lower d order diff).2).sum ≤ diff.sum := by
  intro order
  induction order with
  | nil => intro diff; exact le_refl _
  | cons i rest ih =>
    intro diff
    rw [passStep]
    cases h : valid (List.zipWith (· + ·) lower diff) with
    | true => rw [if_pos rfl]
    | false =>
      rw [if_neg Bool.false_ne_true]
      refine (ih _).trans (sum_set_le ?_)
      exact reduceSlack_le d hd0 hd1 _

theorem passStep_some {d : ℚ} (hd0 : 0 ≤ d) (hd1 : d < 1)
    (valid : List ℕ → Bool) (lower : List ℕ) :
    ∀ order diff s diff₂, passStep valid lower d order diff = (some s, diff₂) →
      ∃ dm : List ℕ, dm.length = diff.length ∧
        (∀ j, dm.getD j 0 ≤ diff.getD j 0) ∧
        s = List.zipWith (· + ·) lower dm := by
  intro order
  induction order with
  | nil => intro diff s diff₂ h; simp [passStep] at h
  | cons i rest ih =>
    intro diff s diff₂ h
    rw [passStep] at h
    cases hv : valid (List.zipWith (· + ·) lower diff) with
    | true =>
      rw [hv, if_pos rfl] at h
      refine ⟨diff, rfl, fun j => le_refl _, ?_⟩
      cases h
      rfl
    | false =>
      rw [hv, if_neg Bool.false_ne_true] at h
      rcases ih _ _ _ h with ⟨dm, hlen, hle, hs⟩
      refine ⟨dm, ?_, ?_, hs⟩
      · rw [hlen, List.length_set]
      · intro j
        exact (hle j).trans (set_reduce_getD_le hd0 hd1 diff i j)

theorem passStep_not_mem (valid : List ℕ → Bool) (lower : List ℕ) (d : ℚ) :
    ∀ order diff j, j ∉ order →
      ((passStep valid lower d order diff).2).getD j 0 = diff.getD j 0 := by
  intro order
  induction order with
  | nil => intro diff j _; rfl
  | cons i rest ih =>
    intro diff j hj
    rw [passStep]
    cases h : valid (List.zipWith (· + ·) lower diff) with
    | true => rw [if_pos rfl]
    | false =>
      rw [if_neg Bool.false_ne_true]
      have hji : j ≠ i := fun hc => hj (by rw [hc]; exact List.mem_cons_self i rest)
      rw [ih _ j (fun hc => hj (List.mem_cons_of_mem i hc)),
        getD_set_ne (fun hc => hji hc.symm)]

theorem passStep_none_strict {d : ℚ} (hd0 : 0 ≤ d) (hd1 : d < 1)
    (valid : List ℕ → Bool) (lower : List ℕ) :
    ∀ order diff diff', order.Nodup →
      (∀ j ∈ order, j < diff.length ∧ diff.getD j 0 ≠ 0) →
      passStep valid lower d order diff = (none, diff') →
      ∀ j ∈ order, diff'.getD j 0 < diff.getD j 0 := by
  intro order
  induction order with
  | nil => intro diff diff' _ _ _ j hj; simp at hj
  | cons i rest ih =>
    intro diff diff' hnd hmem h j hj
    rw [passStep] at h
    cases hv : valid (List.zipWith (· + ·) lower diff) with
    | true =>
      rw [hv, if_pos rfl] at h
      simp at h
    | false =>
      rw [hv, if_neg Bool.false_ne_true] at h
      rcases hmem i (List.mem_cons_self i rest) with ⟨hilen, hine⟩
      have hred : reduceSlack d (diff.getD i 0) < diff.getD i 0 :=
        reduceSlack_lt d hd0 hd1 _ (Nat.one_le_iff_ne_zero.mpr hine)
      rcases List.mem_cons.mp hj with rfl | hjr
      · have hni : j ∉ rest := (List.nodup_cons.mp hnd).1
        have hkeep := passStep_not_mem valid lower d rest
          (diff.set j (reduceSlack d (diff.getD j 0))) j hni
        rw [h] at hkeep
        rw [hkeep, getD_set_self hilen]
        exact hred
      · have hji : j ≠ i := fun hc => (List.nodup_cons.mp hnd).1 (hc ▸ hjr)
        have hlt := ih (diff.set i (reduceSlack d (diff.getD i 0))) diff'
          (List.nodup_cons.mp hnd).2
          (fun k hk => by
            rcases hmem k (List.mem_cons_of_mem i hk) with ⟨hk1, hk2⟩
            have hki : k ≠ i := fun hc => (List.nodup_cons.mp hnd).1 (hc ▸ hk)
            constructor
            · rw [List.length_set]; exact hk1
            · rw [getD_set_ne (fun hc => hki hc.symm)]; exact hk2)
          h j hjr
        rw [getD_set_ne (fun hc => hji hc.symm)] at hlt
        exact hlt

/-! Facts about the loop. -/

theorem passStep_head_none_sum_lt {d : ℚ} (hd0 : 0 ≤ d) (hd1 : d < 1)
    (valid : List ℕ → Bool) (lower : List ℕ) {diff diff' : List ℕ} {i : ℕ}
    {rest : List ℕ} (horder : searchOrder diff = i :: rest)
    (h : passStep valid lower d (i :: rest) diff = (none, diff')) :
    diff'.sum < diff.sum := by
  have hi : i < diff.length ∧ diff.getD i 0 ≠ 0 :=
    mem_searchOrder.mp (horder ▸ List.mem_cons_self i rest)
  rw [passStep] at h
  cases hv : valid (List.zipWith (· + ·) lower diff) with
  | true =>
    rw [hv, if_pos rfl] at h
    simp at h
  | false =>
    rw [hv, if_neg Bool.false_ne_true] at h
    have hred : reduceSlack d (diff.getD i 0) < diff.getD i 0 :=
      reduceSlack_lt d hd0 hd1 _ (Nat.one_le_iff_ne_zero.mpr hi.2)
    have h1 : (diff.set i (reduceSlack d (diff.getD i 0))).sum < diff.sum :=
      sum_set_lt hi.1 hred
    have h2 := passStep_snd_sum_le hd0 hd1 valid lower rest
      (diff.set i (reduceSlack d (diff.getD i 0)))
    rw [h] at h2
    have h2h : diff'.sum ≤ (diff.set i (reduceSlack d (diff.getD i 0))).sum := h2
    omega

theorem findLoopFuel_congr {d : ℚ} (hd0 : 0 ≤ d) (hd1 : d < 1)
    (valid : List ℕ → Bool) (lower : List ℕ) :
    ∀ n diff f1 f2, diff.sum ≤ n → diff.sum + 1 ≤ f1 → diff.sum + 1 ≤ f2 →
      findLoopFuel valid lower d f1 diff = findLoopFuel valid lower d f2 diff := by
  intro n
  induction n with
  | zero =>
    intro diff f1 f2 hs h1 h2
    rcases Nat.exists_eq_add_of_le h1 with ⟨a, ha⟩
    rcases Nat.exists_eq_add_of_le h2 with ⟨b, hb⟩
    have horder : searchOrder diff = [] := by
      rw [searchOrder_eq_nil_iff]
      intro i hi
      have hgd : diff.getD i 0 = diff[i] := List.getD_eq_getElem diff 0 hi
      have hmem : diff.getD i 0 ∈ diff := by
        rw [hgd]; exact List.getElem_mem _
      exact List.sum_eq_zero_iff.mp (Nat.le_zero.mp hs) _ hmem
    subst ha hb
    rw [show diff.sum + 1 + a = (diff.sum + a) + 1 by omega,
      show diff.sum + 1 + b = (diff.sum + b) + 1 by omega,
      findLoopFuel, findLoopFuel, if_pos horder, if_pos horder]
  | succ n ih =>
    intro diff f1 f2 hs h1 h2
    rcases Nat.exists_eq_add_of_le h1 with ⟨a, ha⟩
    rcases Nat.exists_eq_add_of_le h2 with ⟨b, hb⟩
    subst ha hb
    rw [show diff.sum + 1 + a = (diff.sum + a) + 1 by omega,
      show diff.sum + 1 + b = (diff.sum + b) + 1 by omega,
      findLoopFuel, findLoopFuel]
    cases horder : searchOrder diff with
    | nil => rw [if_pos rfl, if_pos rfl]
    | cons i rest =>
      rw [if_neg (by simp), if_neg (by simp)]
      cases hpass : passStep valid lower d (i :: rest) diff with
      | mk res diff' =>
        cases res with
        | some s => rfl
        | none =>
          show findLoopFuel valid lower d (diff.sum + a) diff' =
            findLoopFuel valid lower d (diff.sum + b) diff'
          have hlt : diff'.sum < diff.sum :=
            passStep_head_none_sum_lt hd0 hd1 valid lower horder hpass
          have e1 := ih diff' (diff.sum + a) (diff'.sum + 1) (by omega) (by omega) (by omega)
          have e2 := ih diff' (diff.sum + b) (diff'.sum + 1) (by omega) (by omega) (by omega)
          rw [e1, e2]

theorem findLoopFuel_some {d : ℚ} (hd0 : 0 ≤ d) (hd1 : d < 1)
    (valid : List ℕ → Bool) (lower : List ℕ) :
    ∀ fuel diff s, findLoopFuel valid lower d fuel diff = some s →
      ∃ dm : List ℕ, dm.length = diff.length ∧
        (∀ j, dm.getD j 0 ≤ diff.getD j 0) ∧
        s = List.zipWith (· + ·) lower dm := by
  intro fuel
  induction fuel with
  | zero => intro diff s h; simp [findLoopFuel] at h
  | succ fuel ih =>
    intro diff s h
    rw [findLoopFuel] at h
    by_cases horder : searchOrder diff = []
    · rw [if_pos horder] at h
      simp at h
    · rw [if_neg horder] at h
      cases hpass : passStep valid lower d (searchOrder diff) diff with
      | mk res diff' =>
        rw [hpass] at h
        cases res with
        | some s' =>
          have hss : some s' = some s := h
          cases hss
          exact passStep_some hd0 hd1 valid lower _ _ _ _ hpass
        | none =>
          have hrec : findLoopFuel valid lower d fuel diff' = some s := h
          rcases ih diff' s hrec with ⟨dm, hlen, hle, hs⟩
          refine ⟨dm, ?_, ?_, hs⟩
          · rw [hlen]
            have hl := passStep_snd_length valid lower d (searchOrder diff) diff
            rw [hpass] at hl
            exact hl
          · intro j
            have hg := passStep_snd_getD_le hd0 hd1 valid lower (searchOrder diff) diff j
            rw [hpass] at hg
            exact (hle j).trans hg
theorem getD_zipWith_sub {a b : List ℕ} {i : ℕ} (ha : i < a.length)
    (hb : i < b.length) :
    (List.zipWith (fun u l => u - l) a b).getD i 0 = a.getD i 0 - b.getD i 0 := by
  induction a generalizing b i with
  | nil => simp at ha
  | cons x t ih =>
    cases b with
    | nil => simp at hb
    | cons y u =>
      cases i with
      | zero => simp
      | succ j =>
        simp only [List.zipWith_cons_cons, List.getD_cons_succ]
        exact ih (by simpa using ha) (by simpa using hb)

/-- C1, amended part: any shape returned by `find_one_shape` lies within
`[lower, upper]`; and when it returns `None` although some dimension has
positive slack, the very first probed candidate, `upper`, failed the
validity probe.  (The claim's stronger converse -- `None` implies no shape
in the range validates -- is refuted by `c1_counterexample`.) -/
theorem c1_find_one_shape_sound (valid : List ℕ → Bool) (lower upper : List ℕ)
    (_d : ℚ) (hd0 : 0 ≤ _d) (hd1 : _d < 1) (hlen : lower.length = upper.length)
    (hle : ∀ i, i < lower.length → lower.getD i 0 ≤ upper.getD i 0) :
    (∀ s, find_one_shape valid lower upper _d = some s →
      s.length = lower.length ∧
      ∀ i, i < lower.length → lower.getD i 0 ≤ s.getD i 0 ∧ s.getD i 0 ≤ upper.getD i 0)
    ∧ (find_one_shape valid lower upper _d = none →
       (∃ i, i < lower.length ∧ lower.getD i 0 < upper.getD i 0) →
       valid upper = false) := by
  have hdlen : (List.zipWith (fun u l => u - l) upper lower).length = lower.length := by
    rw [List.length_zipWith, hlen, Nat.min_self]
  constructor
  · intro s h
    simp only [find_one_shape] at h
    rcases findLoopFuel_some hd0 hd1 valid lower _ _ _ h with ⟨dm, hlen2, hptle, hs⟩
    have hdmlen : dm.length = lower.length := by rw [hlen2, hdlen]
    constructor
    · rw [hs, List.length_zipWith, hdmlen, Nat.min_self]
    · intro i hi
      have hgi : s.getD i 0 = lower.getD i 0 + dm.getD i 0 := by
        rw [hs]
        exact getD_zipWith_add hi (by omega)
      have hdmle : dm.getD i 0 ≤ upper.getD i 0 - lower.getD i 0 := by
        have h1 := hptle i
        rw [getD_zipWith_sub (by omega) (by omega)] at h1
        exact h1
      have hub := hle i hi
      constructor
      · omega
      · omega
  · intro h hex
    rcases hex with ⟨i, hi, hstrict⟩
    have hne : searchOrder (List.zipWith (fun u l => u - l) upper lower) ≠ [] := by
      intro hb
      rw [searchOrder_eq_nil_iff] at hb
      have hz := hb i (by omega)
      rw [getD_zipWith_sub (by omega) (by omega)] at hz
      omega
    simp only [find_one_shape] at h
    rw [findLoopFuel, if_neg hne] at h
    rcases List.exists_cons_of_ne_nil hne with ⟨j, rest, horder⟩
    rw [horder] at h
    have hcand : List.zipWith (· + ·) lower (List.zipWith (fun u l => u - l) upper lower)
        = upper := zipWith_add_sub hlen hle
    cases hvb : valid upper with
    | false => rfl
    | true =>
      exfalso
      have hpass : passStep valid lower _d (j :: rest)
          (List.zipWith (fun u l => u - l) upper lower)
          = (some upper, List.zipWith (fun u l => u - l) upper lower) := by
        rw [passStep, hcand, hvb, if_pos rfl]
      rw [hpass] at h
      have hcontra : some upper = none := h
      cases hcontra

/-- C1, counterexample to the claim as stated: with `lower = upper = [4]`
there is no free dimension, so `find_one_shape` returns `None` immediately
-- yet the shape `[4]` lies in `[lower, upper]` and is accepted by the
validity probe (here: a probe accepting everything). -/
theorem c1_counterexample :
    find_one_shape (fun _ => true) [4] [4] 0 = none ∧
    (fun _ : List ℕ => true) [4] = true ∧
    ([4] : List ℕ).getD 0 0 ≤ ([4] : List ℕ).getD 0 0 := by
  refine ⟨by decide, rfl, le_refl _⟩

/-- C1 witness: a concrete run through `c1_find_one_shape_sound`. -/
theorem c1_witness :
    ([2, 3] : List ℕ).length = ([1, 2] : List ℕ).length ∧
    ([1, 2] : List ℕ).getD 0 0 ≤ ([2, 3] : List ℕ).getD 0 0 ∧
    ([2, 3] : List ℕ).getD 0 0 ≤ ([2, 3] : List ℕ).getD 0 0 := by
  have hmain := (c1_find_one_shape_sound (fun s => s = [2, 3]) [1, 2] [2, 3] 0
    (by norm_num) (by norm_num) (by decide) (by decide)).1 [2, 3] (by decide)
  exact ⟨hmain.1, hmain.2 0 (by decide)⟩

/-- C6, amended: when the candidate fails, the pass continues on the
remaining dimensions with the selected dimension's slack updated to
`reduceSlack`, i.e. `int((1 - discard) * old_slack - 1)` in Python; this
equals the spec's `floor((1 - discard) * old_slack) - 1` whenever
`(1 - discard) * old_slack >= 1`, but is `0` (not `-1`) when
`(1 - discard) * old_slack < 1`, and it never increases the slack.
(`c6_counterexample` shows the spec's formula is off by the clamp at 0.) -/
theorem c6_slack_update (valid : List ℕ → Bool) (lower : List ℕ) (d : ℚ)
    (hd0 : 0 ≤ d) (hd1 : d < 1) :
    (∀ i rest diff, valid (List.zipWith (· + ·) lower diff) = false →
      passStep valid lower d (i :: rest) diff =
        passStep valid lower d rest (diff.set i (reduceSlack d (diff.getD i 0))))
    ∧ (∀ n : ℕ, 1 ≤ n →
        ((1 : ℚ) ≤ (1 - d) * n → (reduceSlack d n : ℤ) = specSlackUpdate d n)
        ∧ ((1 - d) * n < 1 → reduceSlack d n = 0)
        ∧ reduceSlack d n < n) := by
  constructor
  · intro i rest diff hv
    rw [passStep, hv, if_neg Bool.false_ne_true]
  · intro n hn
    have hq0 : (0 : ℚ) < (1 - d) * n := by
      apply mul_pos (by linarith)
      have : (1 : ℚ) ≤ (n : ℚ) := by exact_mod_cast hn
      linarith
    refine ⟨?_, ?_, reduceSlack_lt d hd0 hd1 n hn⟩
    · intro hge
      rw [reduceSlack_eq_truncQ, specSlackUpdate]
      have hnn : (0 : ℚ) ≤ (1 - d) * n - 1 := by linarith
      rw [truncQ, if_neg (not_lt.mpr hnn)]
      have hfl : ⌊(1 - d) * (n : ℚ) - 1⌋ = ⌊(1 - d) * (n : ℚ)⌋ - 1 := by
        rw [show ((1 : ℚ)) = ((1 : ℤ) : ℚ) by norm_num, Int.floor_sub_int]
      rw [hfl]
      have hfl0 : (1 : ℤ) ≤ ⌊(1 - d) * (n : ℚ)⌋ := by
        rw [Int.le_floor]
        exact_mod_cast hge
      omega
    · intro hlt1
      rw [reduceSlack_eq_truncQ]
      have hneg : (1 - d) * (n : ℚ) - 1 < 0 := by linarith
      rw [truncQ, if_pos hneg]
      have hc1 : ⌈(1 - d) * (n : ℚ) - 1⌉ ≤ 0 := by
        rw [Int.ceil_le]
        push_cast
        linarith
      have hc2 : (-1 : ℤ) < ⌈(1 - d) * (n : ℚ) - 1⌉ := by
        rw [Int.lt_ceil]
        push_cast
        linarith
      omega

/-- C6, counterexample to the spec formula: with `discard = 1/2` and slack
`1`, the pass running on `lower = [0]`, `diff = [1]` sets the slack to
`int(0.5 * 1 - 1) = 0`, while the claim's formula
`floor((1 - discard) * old_slack) - 1` gives `-1`. -/
theorem c6_counterexample :
    passStep (fun _ => false) [0] (mkRat 1 2) [0] [1] = (none, [0]) ∧
    reduceSlack (mkRat 1 2) 1 = 0 ∧
    specSlackUpdate (mkRat 1 2) 1 = -1 ∧ ((0 : ℤ) ≠ -1) := by
  refine ⟨by decide, by decide, ?_, by decide⟩
  rw [specSlackUpdate]
  have hm : (mkRat 1 2 : ℚ) = 1 / 2 := by
    rw [Rat.mkRat_eq_divInt, Rat.divInt_eq_div]
    norm_num
  rw [hm]
  norm_num

/-- C6 witness: a concrete application of `c6_slack_update`. -/
theorem c6_witness :
    passStep (fun _ => false) [0] 0 [0] [5] =
      passStep (fun _ => false) [0] 0 [] ([5].set 0 (reduceSlack 0 ([5].getD 0 0))) ∧
    reduceSlack 0 3 < 3 := by
  have h := c6_slack_update (fun _ => false) [0] 0 (by norm_num) (by norm_num)
  exact ⟨h.1 0 [] [5] rfl, (h.2 3 (by norm_num)).2.2⟩

/-- C8: for valid inputs the search terminates.  (i) The fuel bound
`diff.sum + 1` used by `find_one_shape` is exact: any larger fuel computes
the same result, so the loop needs at most `diff.sum` passes.  (ii) A full
pass that fails strictly shrinks the slack of every free dimension probed.
(iii) Once no free dimension remains, the loop exits with no result. -/
theorem c8_find_one_shape_terminates (valid : List ℕ → Bool) (lower : List ℕ)
    (d : ℚ) (hd0 : 0 ≤ d) (hd1 : d < 1) :
    (∀ diff fuel, diff.sum + 1 ≤ fuel →
      findLoopFuel valid lower d fuel diff =
        findLoopFuel valid lower d (diff.sum + 1) diff)
    ∧ (∀ diff diff', passStep valid lower d (searchOrder diff) diff = (none, diff') →
        ∀ j ∈ searchOrder diff, diff'.getD j 0 < diff.getD j 0)
    ∧ (∀ diff fuel, searchOrder diff = [] → findLoopFuel valid lower d fuel diff = none) := by
  refine ⟨?_, ?_, ?_⟩
  · intro diff fuel hf
    exact findLoopFuel_congr hd0 hd1 valid lower diff.sum diff fuel (diff.sum + 1)
      (le_refl _) hf (le_refl _)
  · intro diff diff' h
    exact passStep_none_strict hd0 hd1 valid lower (searchOrder diff) diff diff'
      (searchOrder_nodup diff)
      (fun j hj => by
        rcases mem_searchOrder.mp hj with ⟨h1, h2⟩
        exact ⟨h1, h2⟩) h
  · intro diff fuel h
    cases fuel with
    | zero => rfl
    | succ f => rw [findLoopFuel, if_pos h]

/-- C8 witness: a concrete application of `c8_find_one_shape_terminates`. -/
theorem c8_witness :
    findLoopFuel (fun _ => false) [0] 0 5 [2] =
      findLoopFuel (fun _ => false) [0] 0 3 [2] :=
  (c8_find_one_shape_terminates (fun _ => false) [0] 0
    (by norm_num) (by norm_num)).1 [2] 5 (by norm_num)

example : find_one_shape (fun s => s = [6]) [4] [6] 0 = some [6] := by decide
example : find_one_shape (fun s => s = [5]) [4] [6] 0 = some [5] := by decide
example : find_one_shape (fun s => s = [4]) [4] [6] 0 = none := by decide
example : find_one_shape (fun _ => true) [4] [4] 0 = none := by decide
example : reduceSlack (mkRat 1 2) 1 = 0 := by decide
example : searchOrder [1, 2, 2, 0] = [2, 1, 0] := by decide

/-! ## The validity probe `validate_shape` (dryrun.py:327-379)

Shapes at this level are the axis-labelled points of `tiktorch.tiktypes`
(not part of `src/`). -/

/-- Modelled from the spec: the `Point2D`/`Point3D`/`Point4D` shape types of
`tiktorch.tiktypes` (not under `src/`) are ordered mappings from axis label
to integer extent. -/
abbrev Point := List (String × ℤ)

/-- Modelled from the spec: `drop_batch` removes the batch axis `b`. -/
def pointDropBatch (p : Point) : Point := p.filter (fun q => q.1 ≠ "b")

/-- Modelled from the spec: `add_batch` adjoins a batch axis `b`. -/
def pointAddBatch (n : ℤ) (p : Point) : Point := ("b", n) :: p

/-- Modelled from the spec: point subtraction is elementwise and defined
only between shapes sharing the same axis set (mismatched axis sets are a
usage error, hence `Option`). -/
def pointSub (p q : Point) : Option Point :=
  if p.map Prod.fst = q.map Prod.fst then
    some (List.zipWith (fun x y => (x.1, x.2 - y.2)) p q)
  else none

/-- Modelled from the spec: axis lookup `shape[a]` (missing axes are a
usage error; `0` is returned here in that unreachable case). -/
def pointGet (p : Point) (a : String) : ℤ :=
  ((p.find? (fun q => q.1 = a)).map Prod.snd).getD 0

/-- The configuration entries read by `validate_shape`
(`INPUT_AXIS_ORDER` and `OUTPUT_AXIS_ORDER`). -/
structure DryRunCfg where
  inputAxisOrder : List String
  outputAxisOrder : List String

/-- Per-device outcome of `DryRunProcess._validate_shape`
(dryrun.py:381-413): an exception or the output tensor's shape.  The
subprocess execution itself is external (torch); its outcome enters the
embedding as an oracle `Exec`, a function of the train-mode flag, the
marshalled input extents and the device. -/
abbrev DeviceOutcome := Except Unit (List ℤ)

abbrev Exec := Bool → List ℤ → ℕ → DeviceOutcome

/-- `[shape[a] for a in self.config[INPUT_AXIS_ORDER]]` (dryrun.py:345). -/
def marshal (cfg : DryRunCfg) (shape : Point) : List ℤ :=
  cfg.inputAxisOrder.map (pointGet shape)

/-- The rejection reasons of `validate_shape`, one per `return False` site
(device exception at dryrun.py:352-355, cross-device divergence at
dryrun.py:357-360) plus the two usage errors that would raise in Python. -/
inductive Reject where
  | emptyDevices | deviceError | divergent | axesMismatch
deriving DecidableEq

/-- Verdict of one `validate_shape` call: a rejection, acceptance that
records the first shrinkage (dryrun.py:374-377), acceptance because the
computed shrinkage matches the recorded one, or rejection because it does
not (dryrun.py:378-379). -/
inductive Verdict where
  | rejected (r : Reject) | okRecorded (shr : Point) | okMatch | mismatch
deriving DecidableEq

/-- The boolean `validate_shape` actually returns. -/
def accepted : Verdict → Bool
  | .okRecorded _ => true
  | .okMatch => true
  | _ => false

def isErrE : DeviceOutcome → Bool
  | .error _ => true
  | .ok _ => false

instance : DecidableEq DeviceOutcome
  | .error x, .error y =>
    match decEq x y with
    | isTrue h => isTrue (congrArg Except.error h)
    | isFalse h => isFalse (fun hc => h (Except.error.inj hc))
  | .error _, .ok _ => isFalse (fun hc => Except.noConfusion hc)
  | .ok _, .error _ => isFalse (fun hc => Except.noConfusion hc)
  | .ok x, .ok y =>
    match decEq x y with
    | isTrue h => isTrue (congrArg Except.ok h)
    | isFalse h => isFalse (fun hc => h (Except.ok.inj hc))

/-- `Point(**{a: s for a, s in zip(output_axis_order, out) if a != "b"})`
(dryrun.py:362-370). -/
def mkOutputPoint (order : List String) (out : List ℤ) : Point :=
  (order.zip out).filter (fun q => q.1 ≠ "b")

/-- First half of `validate_shape` (dryrun.py:340-372): collect the
per-device outcomes, reject if any device raised, reject if the devices
disagree on the output shape, otherwise compute
`shrinkage = shape.drop_batch() - output_shape`. -/
def probeShrink (cfg : DryRunCfg) (shape : Point) (outs : List DeviceOutcome) :
    Except Reject Point :=
  match outs with
  | [] => .error .emptyDevices
  | o :: os =>
    if (o :: os).any isErrE then .error .deviceError
    else if os.any (fun e => decide (e ≠ o)) then .error .divergent
    else
      match o with
      | .error _ => .error .deviceError
      | .ok out =>
        match pointSub (pointDropBatch shape) (mkOutputPoint cfg.outputAxisOrder out) with
        | none => .error .axesMismatch
        | some shr => .ok shr

/-- Second half of `validate_shape` (dryrun.py:374-379): record the first
shrinkage, or compare against the recorded one. -/
def vsCore (cfg : DryRunCfg) (shape : Point) (outs : List DeviceOutcome)
    (recorded : Option Point) : Verdict × Option Point :=
  match probeShrink cfg shape outs with
  | .error r => (.rejected r, recorded)
  | .ok shr =>
    match recorded with
    | none => (.okRecorded shr, some shr)
    | some r => if shr = r then (.okMatch, some r) else (.mismatch, some r)

/-- `DryRunProcess.validate_shape` (dryrun.py:327-379), over the execution
oracle.  The pair is (verdict, updated `self.shrinkage`). -/
def validate_shape (cfg : DryRunCfg) (exec : Exec) (trainMode : Bool)
    (devices : List ℕ) (shape : Point) (recorded : Option Point) :
    Verdict × Option Point :=
  vsCore cfg shape (devices.map (exec trainMode (marshal cfg shape))) recorded

/-- The shrinkage a probe of `shape` computes: what a fresh run (with no
recorded shrinkage) would record. -/
def shrinkOf (cfg : DryRunCfg) (exec : Exec) (trainMode : Bool)
    (devices : List ℕ) (shape : Point) : Option Point :=
  (validate_shape cfg exec trainMode devices shape none).2

/-! ## The dry-run engine `_dry_run` (dryrun.py:188-224) and its worker -/

/-- Arguments of one queued `dry_run` job (dryrun.py:171-186). -/
structure DryRunJob where
  devices : List ℕ
  trainingShape : Option Point
  validShapes : Option (List Point)
  shrinkage : Option Point

/-- The mutable negotiation state of `DryRunProcess` (dryrun.py:139-141).
`validShapes` holds what `_determine_valid_shapes` stores into
`self.valid_shapes`: either the training shape itself or the boolean
results of `validate_shape` (this heterogeneity is the subject of C3). -/
structure DryRunState where
  trainingShape : Option Point
  validShapes : Option (List (Point ⊕ Bool))
  shrinkage : Option Point
deriving DecidableEq

/-- The errors `_dry_run` can deliver to the job future: the `ValueError`s
raised at dryrun.py:199, dryrun.py:204 and dryrun.py:213-216, and any error
escaping `_determine_training_shape` (dryrun.py:226-293). -/
inductive DryRunError where
  | emptyDeviceList
  | shrinkageIncompatible
  | trainingShapeIncompatible
  | trainingShapeFailed
deriving DecidableEq

/-- The tuple delivered by `fut.set_result` (dryrun.py:220). -/
structure DryRunResult where
  devices : List ℕ
  trainingShape : Point
  validShapes : List (Point ⊕ Bool)
  shrinkage : Option Point
deriving DecidableEq

/-- `DryRunProcess.minimal_device_test` (dryrun.py:306-308): keep the
devices whose isolated toy-model probe succeeds; the probe's outcome is
the oracle `deviceOk`. -/
def minimal_device_test (deviceOk : ℕ → Bool) (devices : List ℕ) : List ℕ :=
  devices.filter deviceOk

/-- `DryRunProcess._determine_valid_shapes` (dryrun.py:295-304): with no
supplied shapes, `self.valid_shapes = [self.training_shape]`; otherwise the
list comprehension stores the boolean `validate_shape` results, threading
`self.shrinkage` through the successive calls. -/
def determine_valid_shapes (cfg : DryRunCfg) (exec : Exec) (devices : List ℕ)
    (vs : Option (List Point)) (t : Point) (st : DryRunState) : DryRunState :=
  match vs with
  | none => { st with validShapes := some [Sum.inl t] }
  | some ss =>
    let folded := ss.foldl (fun acc s =>
      let r := validate_shape cfg exec false devices (pointAddBatch 1 s) acc.2
      (acc.1 ++ [Sum.inr (accepted r.1)], r.2))
      (([] : List (Point ⊕ Bool)), st.shrinkage)
    { st with validShapes := some folded.1, shrinkage := folded.2 }

/-- Oracle for `DryRunProcess._determine_training_shape`
(dryrun.py:226-293): from the devices passed to it and the optionally
supplied training shape, it either produces a (batch-dropped) training
shape or raises.  Its internals read the configuration and call
`validate_shape`/`find_one_shape`, which are embedded separately; at the
`_dry_run` level only its arguments and outcome are relevant. -/
abbrev DetTrainingShape := List ℕ → Option Point → Except DryRunError Point

/-- Tail of `_dry_run` (dryrun.py:218-220): determine the valid shapes and
resolve the future with `(devices, training_shape, valid_shapes,
shrinkage)`. -/
def dry_run_finish (cfg : DryRunCfg) (exec : Exec) (st : DryRunState) (t : Point)
    (j : DryRunJob) : DryRunState × Except DryRunError DryRunResult :=
  let st2 := determine_valid_shapes cfg exec j.devices j.validShapes t st
  (st2, .ok { devices := j.devices, trainingShape := t,
              validShapes := st2.validShapes.getD [], shrinkage := st2.shrinkage })

/-- Middle of `_dry_run` (dryrun.py:206-216): run `minimal_device_test`,
only logging the failed devices -- note the filtered list `workingDevices`
is bound but not used afterwards, exactly as `working_devices` is unused in
the source -- then reconcile or determine the training shape.
`_determine_training_shape` receives the original `devices` list. -/
def dry_run_after_shrinkage (cfg : DryRunCfg) (exec : Exec) (deviceOk : ℕ → Bool)
    (dts : DetTrainingShape) (st : DryRunState) (j : DryRunJob) :
    DryRunState × Except DryRunError DryRunResult :=
  let _workingDevices := minimal_device_test deviceOk j.devices
  match st.trainingShape with
  | none =>
    match dts j.devices j.trainingShape with
    | .error e => (st, .error e)
    | .ok t => dry_run_finish cfg exec { st with trainingShape := some t } t j
  | some t0 =>
    match j.trainingShape with
    | some t1 =>
      if t1 ≠ t0 then (st, .error .trainingShapeIncompatible)
      else dry_run_finish cfg exec st t0 j
    | none => dry_run_finish cfg exec st t0 j

/-- `DryRunProcess._dry_run` (dryrun.py:188-224) as one step on the
negotiation state: every raised error is caught and becomes the `.error`
value delivered to the job's future, never an escape (the function is
total).  The state returned is the state after the partial mutations the
Python code performed before raising. -/
def dry_run_step (cfg : DryRunCfg) (exec : Exec) (deviceOk : ℕ → Bool)
    (dts : DetTrainingShape) (st : DryRunState) (j : DryRunJob) :
    DryRunState × Except DryRunError DryRunResult :=
  if j.devices.isEmpty then (st, .error .emptyDeviceList)
  else
    match st.shrinkage with
    | none =>
      dry_run_after_shrinkage cfg exec deviceOk dts { st with shrinkage := j.shrinkage } j
    | some r =>
      match j.shrinkage with
      | some s =>
        if s ≠ r then (st, .error .shrinkageIncompatible)
        else dry_run_after_shrinkage cfg exec deviceOk dts st j
      | none => dry_run_after_shrinkage cfg exec deviceOk dts st j

/-- `DryRunProcess._dry_run_worker` (dryrun.py:162-169): the single
consumer loop, processing queued jobs in order; each job's outcome goes to
that job's future and the loop continues regardless. -/
def dry_run_worker (cfg : DryRunCfg) (exec : Exec) (deviceOk : ℕ → Bool)
    (dts : DetTrainingShape) :
    DryRunState → List DryRunJob → DryRunState × List (Except DryRunError DryRunResult)
  | st, [] => (st, [])
  | st, j :: rest =>
    let r := dry_run_step cfg exec deviceOk dts st j
    let w := dry_run_worker cfg exec deviceOk dts r.1 rest
    (w.1, r.2 :: w.2)

/-- C2: once a shrinkage is recorded, (i) `validate_shape` accepts only a
candidate whose computed shrinkage equals the recorded value exactly, and
leaves the record unchanged; (ii) a `dry_run` call supplying a shrinkage
different from the recorded one fails with the incompatibility error. -/
theorem c2_shrinkage_held :
    (∀ (cfg : DryRunCfg) (exec : Exec) (tm : Bool) (devices : List ℕ)
      (shape : Point) (r : Point),
      accepted (validate_shape cfg exec tm devices shape (some r)).1 = true →
        shrinkOf cfg exec tm devices shape = some r ∧
        (validate_shape cfg exec tm devices shape (some r)).2 = some r)
    ∧ (∀ (cfg : DryRunCfg) (exec : Exec) (deviceOk : ℕ → Bool)
        (dts : DetTrainingShape) (st : DryRunState) (j : DryRunJob) (r s : Point),
        st.shrinkage = some r → j.shrinkage = some s → s ≠ r → j.devices ≠ [] →
        (dry_run_step cfg exec deviceOk dts st j).2 = .error .shrinkageIncompatible) := by
  constructor
  · intro cfg exec tm devices shape r hacc
    rw [validate_shape] at hacc
    rw [shrinkOf, validate_shape, validate_shape]
    cases hp : probeShrink cfg shape (devices.map (exec tm (marshal cfg shape))) with
    | error v =>
      rw [vsCore] at hacc
      rw [hp] at hacc
      simp [accepted] at hacc
    | ok shr =>
      by_cases hsr : shr = r
      · subst hsr
        constructor
        · simp [vsCore, hp]
        · simp [vsCore, hp]
      · exfalso
        rw [vsCore] at hacc
        rw [hp] at hacc
        simp only [if_neg hsr] at hacc
        simp [accepted] at hacc
  · intro cfg exec deviceOk dts st j r s hst hj hne hdev
    have hemp : j.devices.isEmpty = false := by
      simpa [List.isEmpty_iff] using hdev
    simp [dry_run_step, hemp, hst, hj, hne]

/-- C2 witness: a concrete accepted probe against a recorded shrinkage, and
a concrete rejected `dry_run` call. -/
theorem c2_witness :
    (shrinkOf ⟨["b", "x"], ["b", "x"]⟩ (fun _ _ _ => .ok [1, 3]) false [0]
        [("b", 1), ("x", 5)] = some [("x", 2)] ∧
      (validate_shape ⟨["b", "x"], ["b", "x"]⟩ (fun _ _ _ => .ok [1, 3]) false [0]
        [("b", 1), ("x", 5)] (some [("x", 2)])).2 = some [("x", 2)])
    ∧ (dry_run_step ⟨["b", "x"], ["b", "x"]⟩ (fun _ _ _ => .ok [1, 3])
        (fun _ => true) (fun _ _ => .error .trainingShapeFailed)
        ⟨none, none, some [("x", 2)]⟩
        ⟨[0], none, none, some [("x", 3)]⟩).2 = .error .shrinkageIncompatible := by
  constructor
  · exact c2_shrinkage_held.1 ⟨["b", "x"], ["b", "x"]⟩ (fun _ _ _ => .ok [1, 3])
      false [0] [("b", 1), ("x", 5)] [("x", 2)] (by decide)
  · exact c2_shrinkage_held.2 ⟨["b", "x"], ["b", "x"]⟩ (fun _ _ _ => .ok [1, 3])
      (fun _ => true) (fun _ _ => .error .trainingShapeFailed)
      ⟨none, none, some [("x", 2)]⟩ ⟨[0], none, none, some [("x", 3)]⟩
      [("x", 2)] [("x", 3)] rfl rfl (by decide) (by decide)

/-- C7: with two or more devices and no execution error, the candidate is
accepted only if all devices report the same output shape; any divergence
produces the `divergent` rejection (the warning path), which is a different
rejection reason from `deviceError` (the execution-error path). -/
theorem c7_devices_agree (cfg : DryRunCfg) (exec : Exec) (tm : Bool)
    (devices : List ℕ) (shape : Point) (recorded : Option Point)
    (h2 : 2 ≤ devices.length) :
    ((∀ o ∈ devices.map (exec tm (marshal cfg shape)), isErrE o = false) →
      (accepted (validate_shape cfg exec tm devices shape recorded).1 = true →
        ∀ o ∈ devices.map (exec tm (marshal cfg shape)),
          o = (devices.map (exec tm (marshal cfg shape))).getD 0 (.error ())) ∧
      ((∃ o ∈ devices.map (exec tm (marshal cfg shape)),
          o ≠ (devices.map (exec tm (marshal cfg shape))).getD 0 (.error ())) →
        (validate_shape cfg exec tm devices shape recorded).1 = .rejected .divergent))
    ∧ ((∃ o ∈ devices.map (exec tm (marshal cfg shape)), isErrE o = true) →
        (validate_shape cfg exec tm devices shape recorded).1 = .rejected .deviceError)
    ∧ Reject.divergent ≠ Reject.deviceError := by
  cases houts : devices.map (exec tm (marshal cfg shape)) with
  | nil =>
    exfalso
    have hlen0 : devices.length = 0 := by
      have := congrArg List.length houts
      simpa using this
    omega
  | cons o os =>
    refine ⟨?_, ?_, by decide⟩
    · intro hnoerr
      have hanyerr : (o :: os).any isErrE = false := by
        rw [List.any_eq_false]
        intro e he
        rw [hnoerr e (houts ▸ he)]
        simp
      by_cases hdiv : os.any (fun e => decide (e ≠ o)) = true
      · have hps : probeShrink cfg shape (o :: os) = .error .divergent := by
          simp only [probeShrink]
          rw [hanyerr, hdiv, if_neg Bool.false_ne_true, if_pos rfl]
        constructor
        · intro hacc
          exfalso
          rw [validate_shape, houts] at hacc
          rw [vsCore] at hacc
          rw [hps] at hacc
          simp [accepted] at hacc
        · intro _
          rw [validate_shape, houts, vsCore, hps]
      · have hdiv2 : os.any (fun e => decide (e ≠ o)) = false := by
          simpa using hdiv
        rw [List.any_eq_false] at hdiv2
        constructor
        · intro _ e he
          show e = o
          rcases List.mem_cons.mp he with rfl | hos
          · rfl
          · have hh := hdiv2 e hos
            simp only [decide_eq_true_eq] at hh
            exact not_not.mp hh
        · intro hex
          exfalso
          rcases hex with ⟨e, he, hne⟩
          rcases List.mem_cons.mp he with rfl | hos
          · exact hne rfl
          · have hh := hdiv2 e hos
            simp only [decide_eq_true_eq] at hh
            exact hne (not_not.mp hh)
    · intro hex
      have hanyerr : (o :: os).any isErrE = true := by
        rw [List.any_eq_true]
        rcases hex with ⟨e, he, herr⟩
        exact ⟨e, houts ▸ he, herr⟩
      have hps : probeShrink cfg shape (o :: os) = .error .deviceError := by
        simp only [probeShrink]
        rw [hanyerr, if_pos rfl]
      rw [validate_shape, houts, vsCore, hps]

/-- C7 witness: two devices returning different output shapes produce the
`divergent` rejection. -/
theorem c7_witness :
    (validate_shape ⟨["b", "x"], ["b", "x"]⟩
      (fun _ _ dev => if dev = 0 then .ok [1, 3] else .ok [1, 4]) false [0, 1]
      [("b", 1), ("x", 5)] none).1 = .rejected .divergent := by
  exact ((c7_devices_agree ⟨["b", "x"], ["b", "x"]⟩
    (fun _ _ dev => if dev = 0 then .ok [1, 3] else .ok [1, 4]) false [0, 1]
    [("b", 1), ("x", 5)] none (by decide)).1 (by decide)).2 (by decide)

/-- C3: evaluation of `_dry_run` at concrete inputs.  First conjunct: with
no supplied `valid_shapes` the resolved record's `valid_shapes` is
`[training_shape]`, as claimed.  Second conjunct: with a supplied shape the
resolved `valid_shapes` is the list of *boolean* `validate_shape` results
(`Sum.inr true`), not a list of shapes -- the list comprehension at
dryrun.py:302-304 stores `validate_shape(...)` (a `bool`) for each supplied
shape, contradicting the declared future type
`RPCFuture[Tuple[..., List[Point2D], ...]]` (dryrun.py:177-183) and the
`# todo: find valid shapes` marker (dryrun.py:298). -/
theorem c3_valid_shapes_are_booleans :
    (dry_run_step ⟨["b", "x"], ["b", "x"]⟩ (fun _ _ _ => .ok [1, 3])
      (fun _ => true) (fun _ _ => .ok [("x", 4)]) ⟨none, none, none⟩
      ⟨[0], none, none, none⟩).2 =
      .ok ⟨[0], [("x", 4)], [Sum.inl [("x", 4)]], none⟩
    ∧ (dry_run_step ⟨["b", "x"], ["b", "x"]⟩ (fun _ _ _ => .ok [1, 3])
      (fun _ => true) (fun _ _ => .ok [("x", 4)]) ⟨none, none, none⟩
      ⟨[0], none, some [[("x", 5)]], none⟩).2 =
      .ok ⟨[0], [("x", 4)], [Sum.inr true], some [("x", 2)]⟩ :=
  ⟨rfl, rfl⟩

/-- C4: devices failing `minimal_device_test` are *not* excluded.  The
filtered list is computed (first conjunct: device `1` fails the probe) but
`_dry_run` passes the original `devices` both to
`_determine_training_shape` (the oracle here answers only for the full
2-device list, and the run succeeds) and to the inference-shape validation
(which therefore sees device `1`'s execution error and reports `false`,
second conjunct), while the same probe over the working devices alone
accepts the shape (third conjunct). -/
theorem c4_failed_device_not_excluded :
    minimal_device_test (fun dev => dev = 0) [0, 1] = [0]
    ∧ (dry_run_step ⟨["b", "x"], ["b", "x"]⟩
        (fun _ _ dev => if dev = 0 then .ok [1, 3] else .error ())
        (fun dev => dev = 0)
        (fun devs _ => if devs.length = 2 then .ok [("x", 4)]
          else .error .trainingShapeFailed)
        ⟨none, none, none⟩
        ⟨[0, 1], none, some [[("x", 5)]], none⟩).2 =
        .ok ⟨[0, 1], [("x", 4)], [Sum.inr false], none⟩
    ∧ accepted (validate_shape ⟨["b", "x"], ["b", "x"]⟩
        (fun _ _ dev => if dev = 0 then .ok [1, 3] else .error ())
        false [0] (pointAddBatch 1 [("x", 5)]) none).1 = true :=
  ⟨rfl, rfl, rfl⟩

/-- C5: the worker loop delivers exactly one outcome per queued job --
errors (including the empty-device-list `ValueError`) are caught and become
that job's failure value, and the loop goes on to the remaining jobs. -/
theorem c5_worker_survives_errors (cfg : DryRunCfg) (exec : Exec)
    (deviceOk : ℕ → Bool) (dts : DetTrainingShape) :
    ∀ (jobs : List DryRunJob) (st : DryRunState),
      ((dry_run_worker cfg exec deviceOk dts st jobs).2).length = jobs.length ∧
      ∀ (k : ℕ) (j : DryRunJob), jobs[k]? = some j → j.devices = [] →
        ((dry_run_worker cfg exec deviceOk dts st jobs).2)[k]? =
          some (.error .emptyDeviceList) := by
  intro jobs
  induction jobs with
  | nil =>
    intro st
    refine ⟨rfl, ?_⟩
    intro k j hk
    simp at hk
  | cons j0 rest ih =>
    intro st
    constructor
    · show ((dry_run_step cfg exec deviceOk dts st j0).2 ::
        (dry_run_worker cfg exec deviceOk dts
          (dry_run_step cfg exec deviceOk dts st j0).1 rest).2).length = rest.length + 1
      rw [List.length_cons, (ih _).1]
    · intro k j hk hdev
      cases k with
      | zero =>
        have hj : j0 = j := by simpa using hk
        subst hj
        have hstep : dry_run_step cfg exec deviceOk dts st j0 =
            (st, .error .emptyDeviceList) := by
          rw [dry_run_step, if_pos (by rw [hdev]; rfl)]
        simp [dry_run_worker, hstep]
      | succ k' =>
        have hk2 : rest[k']? = some j := by simpa using hk
        simp only [dry_run_worker, List.getElem?_cons_succ]
        exact (ih _).2 k' j hk2 hdev

/-- C5 witness: a queue of an invalid and a valid job; the first fails with
the empty-device error, the second is still processed. -/
theorem c5_witness :
    ((dry_run_worker ⟨["b", "x"], ["b", "x"]⟩ (fun _ _ _ => .ok [1, 3])
      (fun _ => true) (fun _ _ => .ok [("x", 4)]) ⟨none, none, none⟩
      [⟨[], none, none, none⟩, ⟨[0], none, none, none⟩]).2).length = 2
    ∧ ((dry_run_worker ⟨["b", "x"], ["b", "x"]⟩ (fun _ _ _ => .ok [1, 3])
      (fun _ => true) (fun _ _ => .ok [("x", 4)]) ⟨none, none, none⟩
      [⟨[], none, none, none⟩, ⟨[0], none, none, none⟩]).2)[0]? =
      some (.error .emptyDeviceList) := by
  constructor
  · exact (c5_worker_survives_errors ⟨["b", "x"], ["b", "x"]⟩
      (fun _ _ _ => .ok [1, 3]) (fun _ => true) (fun _ _ => .ok [("x", 4)])
      [⟨[], none, none, none⟩, ⟨[0], none, none, none⟩] ⟨none, none, none⟩).1
  · exact (c5_worker_survives_errors ⟨["b", "x"], ["b", "x"]⟩
      (fun _ _ _ => .ok [1, 3]) (fun _ => true) (fun _ _ => .ok [("x", 4)])
      [⟨[], none, none, none⟩, ⟨[0], none, none, none⟩] ⟨none, none, none⟩).2
      0 ⟨[], none, none, none⟩ rfl rfl

/-! ## Model adapters (_exemplum.py, _tensorflow_model_adapter.py) -/

/-- The parts of a `pybio` model spec read by the adapter constructors. -/
structure AdapterSpec where
  nInputs : ℕ
  nOutputs : ℕ
  inputAxes : List String
  outputAxes : List String
  inputShape : List ℤ
  halo : Option (List ℤ)
  framework : String
  hasWeights : Bool

/-- The side effects a constructor can attempt, in order: model
instantiation (`get_instance`), device placement (`model.to(device)`),
weight loading (`torch.load` + `load_state_dict`), tensorflow model
loading (`tf.keras.models.load_model`). -/
inductive AdapterEffect where
  | instantiateModel | toDevice | loadWeights | loadTfModel
deriving DecidableEq

inductive AdapterError where
  | notImplemented | assertionFailed
deriving DecidableEq

/-- The pure attributes a successful constructor computes. -/
structure AdapterAttrs where
  inputAxes : List String
  outputAxes : List String
  inputShape : List (String × ℤ)
  halo : List (String × ℤ)
deriving DecidableEq

/-- Outcome of running a constructor: the effects performed (in order) and
the result. -/
structure InitOutcome where
  effects : List AdapterEffect
  result : Except AdapterError AdapterAttrs

/-- Modelled from the spec: `has_batch_dim` of `model_adapter._utils` (not
under `src/`): whether the axes string starts with the batch axis `b`
(the spec's shapes have an "optional batch axis" leading the spatial
axes). -/
def has_batch_dim (axes : List String) : Bool := axes.headD "" = "b"

/-- The axis/shape/halo bookkeeping shared by both constructors
(_exemplum.py:47-71, _tensorflow_model_adapter.py:44-69). -/
def adapterAttrs (spec : AdapterSpec) : AdapterAttrs :=
  let inputAxes := if has_batch_dim spec.inputAxes then spec.inputAxes.tail
    else spec.inputAxes
  let inputShape := if has_batch_dim spec.inputAxes then spec.inputShape.tail
    else spec.inputShape
  let halo0 := spec.halo.getD (spec.outputAxes.map (fun _ => 0))
  let outputAxes := if has_batch_dim spec.outputAxes then spec.outputAxes.tail
    else spec.outputAxes
  let halo1 := if has_batch_dim spec.outputAxes then halo0.tail else halo0
  ⟨inputAxes, outputAxes, inputAxes.zip inputShape, outputAxes.zip halo1⟩

/-- `Exemplum.__init__` (_exemplum.py:28-90): the input/output arity check
(lines 39-40) comes before `get_instance` (line 73), device placement
(line 76) and weight loading (lines 78-80); a non-pytorch framework raises
`NotImplementedError` only after instantiation (line 87). -/
def exemplumInit (spec : AdapterSpec) : InitOutcome :=
  if spec.nInputs ≠ 1 ∨ spec.nOutputs ≠ 1 then ⟨[], .error .notImplemented⟩
  else
    let attrs := adapterAttrs spec
    if spec.framework = "pytorch" then
      ⟨[.instantiateModel, .toDevice] ++ (if spec.hasWeights then [.loadWeights] else []),
        .ok attrs⟩
    else ⟨[.instantiateModel], .error .notImplemented⟩

/-- `TensorflowModelAdapter.__init__` (_tensorflow_model_adapter.py:25-74):
the arity check (lines 34-35) comes before the framework assertion
(line 39), `get_instance` (line 71) and tensorflow model loading
(line 73). -/
def tensorflowInit (spec : AdapterSpec) : InitOutcome :=
  if spec.nInputs ≠ 1 ∨ spec.nOutputs ≠ 1 then ⟨[], .error .notImplemented⟩
  else if spec.framework ≠ "tensorflow" then ⟨[], .error .assertionFailed⟩
  else
    let attrs := adapterAttrs spec
    ⟨[.instantiateModel, .loadTfModel], .ok attrs⟩

/-- C9: a model spec with input or output arity other than one makes both
constructors fail with `NotImplementedError` before any effect -- in
particular before device placement or weight loading -- is attempted. -/
theorem c9_single_input_output_only (spec : AdapterSpec)
    (h : spec.nInputs ≠ 1 ∨ spec.nOutputs ≠ 1) :
    exemplumInit spec = ⟨[], .error .notImplemented⟩ ∧
    tensorflowInit spec = ⟨[], .error .notImplemented⟩ :=
  ⟨by rw [exemplumInit, if_pos h], by rw [tensorflowInit, if_pos h]⟩

/-- C9 witness: a two-input pytorch spec is rejected with no effects. -/
theorem c9_witness :
    exemplumInit ⟨2, 1, ["b", "x"], ["b", "x"], [1, 8], none, "pytorch", true⟩ =
      ⟨[], .error .notImplemented⟩ ∧
    tensorflowInit ⟨2, 1, ["b", "x"], ["b", "x"], [1, 8], none, "pytorch", true⟩ =
      ⟨[], .error .notImplemented⟩ :=
  c9_single_input_output_only _ (Or.inl (by decide))

/-! ## `update_config` (dryrun.py:147-160) -/

/-- A top-level config value: a scalar or a nested mapping.  (Scalars are
integers here; `update_config` never inspects scalar values, only whether a
value is a dict or `None`.) -/
inductive CVal where
  | prim (v : ℤ)
  | dict (m : List (String × ℤ))
deriving DecidableEq

/-- A value in a partial config: Python `None` (deletion), a scalar, or a
nested mapping whose `none` entries delete subkeys. -/
inductive PVal where
  | null
  | prim (v : ℤ)
  | dict (m : List (String × Option ℤ))
deriving DecidableEq

/-- A Python dict as an association list in insertion order with unique
keys (`keysNodup`). -/
abbrev Config := List (String × CVal)

def keysNodup {α : Type} (l : List (String × α)) : Prop := (l.map Prod.fst).Nodup

/-- Python dict lookup. -/
def assocLookup {α : Type} : List (String × α) → String → Option α
  | [], _ => none
  | (k', v) :: rest, k => if k' = k then some v else assocLookup rest k

/-- Python dict assignment: replace in place if present, append if not. -/
def assocSet {α : Type} : List (String × α) → String → α → List (String × α)
  | [], k, v => [(k, v)]
  | (k', v') :: rest, k, v =>
    if k' = k then (k, v) :: rest else (k', v') :: assocSet rest k v

/-- Python `del d[k]` guarded by `if k in d` (a no-op when absent). -/
def assocErase {α : Type} : List (String × α) → String → List (String × α)
  | [], _ => []
  | (k', v') :: rest, k => if k' = k then rest else (k', v') :: assocErase rest k

/-- The inner loop of the dict branch (dryrun.py:150-155): per subkey,
`none` deletes, anything else assigns. -/
def mergeSub (sub : List (String × ℤ)) (m : List (String × Option ℤ)) :
    List (String × ℤ) :=
  m.foldl (fun acc p =>
    match p.2 with
    | none => assocErase acc p.1
    | some v => assocSet acc p.1 v) sub

/-- One iteration of `update_config`'s outer loop (dryrun.py:148-160).
`none` models the uncaught Python exception: a nonempty dict value whose
key is missing from the config (`KeyError`) or mapped to a non-dict
(`TypeError`). -/
def applyUpd (cfg : Config) (p : String × PVal) : Option Config :=
  match p.2 with
  | .dict m =>
    match m with
    | [] => some cfg
    | _ :: _ =>
      match assocLookup cfg p.1 with
      | some (.dict sub) => some (assocSet cfg p.1 (.dict (mergeSub sub m)))
      | _ => none
  | .null => some (assocErase cfg p.1)
  | .prim v => some (assocSet cfg p.1 (.prim v))

/-- `DryRunProcess.update_config` (dryrun.py:147-160), iterating the
partial config in insertion order. -/
def update_config (cfg : Config) : List (String × PVal) → Option Config
  | [] => some cfg
  | p :: rest =>
    match applyUpd cfg p with
    | none => none
    | some c => update_config c rest

/-- Every nested mapping stored in the config has unique keys. -/
def nestedWf (cfg : Config) : Prop :=
  ∀ p ∈ cfg, match p.2 with
    | CVal.dict sub => (sub.map Prod.fst).Nodup
    | _ => True

example : update_config
    [("a", .prim 1), ("t", .dict [("b", 2), ("c", 3)])]
    [("a", .prim 5), ("t", .dict [("b", some 7), ("c", none)]), ("z", .null)] =
    some [("a", .prim 5), ("t", .dict [("b", 7)])] := by decide

/-! Association-list lemmas for `update_config`. -/

theorem assocLookup_not_mem {α : Type} (l : List (String × α)) (k : String)
    (h : k ∉ l.map Prod.fst) : assocLookup l k = none := by
  induction l with
  | nil => rfl
  | cons p rest ih =>
    rcases p with ⟨k', v'⟩
    rw [List.map_cons] at h
    have h1 : k' ≠ k := by
      intro hc
      exact h (by rw [← hc]; exact List.mem_cons_self _ _)
    rw [assocLookup, if_neg h1]
    exact ih (fun hc => h (List.mem_cons_of_mem _ hc))

theorem assocLookup_set_self {α : Type} (l : List (String × α)) (k : String) (v : α) :
    assocLookup (assocSet l k v) k = some v := by
  induction l with
  | nil => rw [assocSet, assocLookup, if_pos rfl]
  | cons p rest ih =>
    rcases p with ⟨k', v'⟩
    rw [assocSet]
    by_cases h : k' = k
    · rw [if_pos h, assocLookup, if_pos rfl]
    · rw [if_neg h, assocLookup, if_neg h]
      exact ih

theorem assocLookup_set_ne {α : Type} (l : List (String × α)) (k k2 : String)
    (v : α) (h : k ≠ k2) :
    assocLookup (assocSet l k v) k2 = assocLookup l k2 := by
  induction l with
  | nil =>
    simp only [assocSet, assocLookup]
    rw [if_neg h]
  | cons p rest ih =>
    rcases p with ⟨k', v'⟩
    rw [assocSet]
    by_cases hk : k' = k
    · subst hk
      rw [if_pos rfl, assocLookup, if_neg h, assocLookup, if_neg h]
    · rw [if_neg hk, assocLookup, assocLookup]
      by_cases h2 : k' = k2
      · rw [if_pos h2, if_pos h2]
      · rw [if_neg h2, if_neg h2, ih]

theorem assocLookup_erase_ne {α : Type} (l : List (String × α)) (k k2 : String)
    (h : k ≠ k2) :
    assocLookup (assocErase l k) k2 = assocLookup l k2 := by
  induction l with
  | nil => rfl
  | cons p rest ih =>
    rcases p with ⟨k', v'⟩
    rw [assocErase]
    by_cases hk : k' = k
    · subst hk
      rw [if_pos rfl, assocLookup, if_neg h]
    · rw [if_neg hk, assocLookup, assocLookup]
      by_cases h2 : k' = k2
      · rw [if_pos h2, if_pos h2]
      · rw [if_neg h2, if_neg h2, ih]

theorem assocLookup_erase_self {α : Type} (l : List (String × α)) (k : String)
    (hnd : keysNodup l) : assocLookup (assocErase l k) k = none := by
  induction l with
  | nil => rfl
  | cons p rest ih =>
    rcases p with ⟨k', v'⟩
    rw [keysNodup, List.map_cons, List.nodup_cons] at hnd
    rw [assocErase]
    by_cases hk : k' = k
    · subst hk
      rw [if_pos rfl]
      exact assocLookup_not_mem rest k' hnd.1
    · rw [if_neg hk, assocLookup, if_neg hk]
      exact ih hnd.2

theorem mem_keys_set {α : Type} (l : List (String × α)) (k k2 : String) (v : α)
    (h : k2 ∈ (assocSet l k v).map Prod.fst) : k2 = k ∨ k2 ∈ l.map Prod.fst := by
  induction l with
  | nil =>
    left
    simpa [assocSet] using h
  | cons p rest ih =>
    rcases p with ⟨k', v'⟩
    rw [assocSet] at h
    by_cases hk : k' = k
    · rw [if_pos hk] at h
      rcases List.mem_cons.mp h with rfl | hr
      · exact Or.inl rfl
      · exact Or.inr (by rw [List.map_cons]; exact List.mem_cons_of_mem _ hr)
    · rw [if_neg hk, List.map_cons] at h
      rcases List.mem_cons.mp h with rfl | hr
      · exact Or.inr (by rw [List.map_cons]; exact List.mem_cons_self _ _)
      · rcases ih hr with h1 | h1
        · exact Or.inl h1
        · exact Or.inr (by rw [List.map_cons]; exact List.mem_cons_of_mem _ h1)

theorem keysNodup_set {α : Type} (l : List (String × α)) (k : String) (v : α)
    (hnd : keysNodup l) : keysNodup (assocSet l k v) := by
  induction l with
  | nil => simp [assocSet, keysNodup]
  | cons p rest ih =>
    rcases p with ⟨k', v'⟩
    rw [keysNodup, List.map_cons, List.nodup_cons] at hnd
    rw [assocSet]
    by_cases hk : k' = k
    · subst hk
      rw [if_pos rfl, keysNodup, List.map_cons, List.nodup_cons]
      exact hnd
    · rw [if_neg hk, keysNodup, List.map_cons, List.nodup_cons]
      refine ⟨?_, ih hnd.2⟩
      intro hc
      rcases mem_keys_set rest k k' v hc with h1 | h1
      · exact hk h1
      · exact hnd.1 h1

theorem mem_keys_erase {α : Type} (l : List (String × α)) (k k2 : String)
    (h : k2 ∈ (assocErase l k).map Prod.fst) : k2 ∈ l.map Prod.fst := by
  induction l with
  | nil => simp [assocErase] at h
  | cons p rest ih =>
    rcases p with ⟨k', v'⟩
    rw [assocErase] at h
    by_cases hk : k' = k
    · rw [if_pos hk] at h
      rw [List.map_cons]
      exact List.mem_cons_of_mem _ h
    · rw [if_neg hk, List.map_cons] at h
      rcases List.mem_cons.mp h with rfl | hr
      · rw [List.map_cons]; exact List.mem_cons_self _ _
      · rw [List.map_cons]; exact List.mem_cons_of_mem _ (ih hr)

theorem keysNodup_erase {α : Type} (l : List (String × α)) (k : String)
    (hnd : keysNodup l) : keysNodup (assocErase l k) := by
  induction l with
  | nil => exact hnd
  | cons p rest ih =>
    rcases p with ⟨k', v'⟩
    rw [keysNodup, List.map_cons, List.nodup_cons] at hnd
    rw [assocErase]
    by_cases hk : k' = k
    · rw [if_pos hk]; exact hnd.2
    · rw [if_neg hk, keysNodup, List.map_cons, List.nodup_cons]
      exact ⟨fun hc => hnd.1 (mem_keys_erase rest k k' hc), ih hnd.2⟩

theorem mem_of_set {α : Type} (l : List (String × α)) (k : String) (v : α)
    (p : String × α) (h : p ∈ assocSet l k v) : p = (k, v) ∨ p ∈ l := by
  induction l with
  | nil => simpa [assocSet] using h
  | cons q rest ih =>
    rcases q with ⟨k', v'⟩
    rw [assocSet] at h
    by_cases hk : k' = k
    · rw [if_pos hk] at h
      rcases List.mem_cons.mp h with rfl | hr
      · exact Or.inl rfl
      · exact Or.inr (List.mem_cons_of_mem _ hr)
    · rw [if_neg hk] at h
      rcases List.mem_cons.mp h with rfl | hr
      · exact Or.inr (List.mem_cons_self _ _)
      · rcases ih hr with h1 | h1
        · exact Or.inl h1
        · exact Or.inr (List.mem_cons_of_mem _ h1)

theorem mem_of_erase {α : Type} (l : List (String × α)) (k : String)
    (p : String × α) (h : p ∈ assocErase l k) : p ∈ l := by
  induction l with
  | nil => simp [assocErase] at h
  | cons q rest ih =>
    rcases q with ⟨k', v'⟩
    rw [assocErase] at h
    by_cases hk : k' = k
    · rw [if_pos hk] at h
      exact List.mem_cons_of_mem _ h
    · rw [if_neg hk] at h
      rcases List.mem_cons.mp h with rfl | hr
      · exact List.mem_cons_self _ _
      · exact List.mem_cons_of_mem _ (ih hr)

theorem assocLookup_mem {α : Type} (l : List (String × α)) (k : String) (v : α)
    (h : assocLookup l k = some v) : (k, v) ∈ l := by
  induction l with
  | nil => cases h
  | cons p rest ih =>
    rcases p with ⟨k', v'⟩
    rw [assocLookup] at h
    by_cases hk : k' = k
    · rw [if_pos hk] at h
      have hv : v' = v := Option.some.inj h
      subst hv
      subst hk
      exact List.mem_cons_self _ _
    · rw [if_neg hk] at h
      exact List.mem_cons_of_mem _ (ih h)

/-! `mergeSub` and `applyUpd` lemmas. -/

theorem mergeSub_cons_none (sub : List (String × ℤ)) (pk : String)
    (rest : List (String × Option ℤ)) :
    mergeSub sub ((pk, none) :: rest) = mergeSub (assocErase sub pk) rest := rfl

theorem mergeSub_cons_some (sub : List (String × ℤ)) (pk : String) (v : ℤ)
    (rest : List (String × Option ℤ)) :
    mergeSub sub ((pk, some v) :: rest) = mergeSub (assocSet sub pk v) rest := rfl

theorem mergeSub_not_mem :
    ∀ (m : List (String × Option ℤ)) (sub : List (String × ℤ)) (sk : String),
      sk ∉ m.map Prod.fst →
      assocLookup (mergeSub sub m) sk = assocLookup sub sk := by
  intro m
  induction m with
  | nil => intro sub sk _; rfl
  | cons p rest ih =>
    intro sub sk hsk
    rcases p with ⟨pk, pv⟩
    rw [List.map_cons] at hsk
    have h1 : sk ∉ rest.map Prod.fst := fun hc => hsk (List.mem_cons_of_mem _ hc)
    have h2 : pk ≠ sk := by
      intro hc
      exact hsk (by rw [hc]; exact List.mem_cons_self _ _)
    cases pv with
    | none => rw [mergeSub_cons_none, ih _ _ h1, assocLookup_erase_ne _ _ _ h2]
    | some v => rw [mergeSub_cons_some, ih _ _ h1, assocLookup_set_ne _ _ _ _ h2]

theorem keysNodup_mergeSub :
    ∀ (m : List (String × Option ℤ)) (sub : List (String × ℤ)),
      keysNodup sub → keysNodup (mergeSub sub m) := by
  intro m
  induction m with
  | nil => intro sub h; exact h
  | cons p rest ih =>
    intro sub h
    rcases p with ⟨pk, pv⟩
    cases pv with
    | none => rw [mergeSub_cons_none]; exact ih _ (keysNodup_erase _ _ h)
    | some v => rw [mergeSub_cons_some]; exact ih _ (keysNodup_set _ _ _ h)

theorem mergeSub_lookup_some :
    ∀ (m : List (String × Option ℤ)) (sub : List (String × ℤ)) (sk : String) (v : ℤ),
      (m.map Prod.fst).Nodup → (sk, some v) ∈ m →
      assocLookup (mergeSub sub m) sk = some v := by
  intro m
  induction m with
  | nil => intro sub sk v _ hm; cases hm
  | cons p rest ih =>
    intro sub sk v hnd hm
    rcases p with ⟨pk, pv⟩
    rw [List.map_cons, List.nodup_cons] at hnd
    rcases List.mem_cons.mp hm with heq | hr
    · have hpk : pk = sk := (congrArg Prod.fst heq).symm
      have hpv : pv = some v := (congrArg Prod.snd heq).symm
      subst hpk hpv
      rw [mergeSub_cons_some, mergeSub_not_mem _ _ _ hnd.1, assocLookup_set_self]
    · cases pv with
      | none => rw [mergeSub_cons_none]; exact ih _ _ _ hnd.2 hr
      | some w => rw [mergeSub_cons_some]; exact ih _ _ _ hnd.2 hr

theorem mergeSub_lookup_none :
    ∀ (m : List (String × Option ℤ)) (sub : List (String × ℤ)) (sk : String),
      keysNodup sub → (m.map Prod.fst).Nodup → (sk, (none : Option ℤ)) ∈ m →
      assocLookup (mergeSub sub m) sk = none := by
  intro m
  induction m with
  | nil => intro sub sk _ _ hm; cases hm
  | cons p rest ih =>
    intro sub sk hsub hnd hm
    rcases p with ⟨pk, pv⟩
    rw [List.map_cons, List.nodup_cons] at hnd
    rcases List.mem_cons.mp hm with heq | hr
    · have hpk : pk = sk := (congrArg Prod.fst heq).symm
      have hpv : pv = (none : Option ℤ) := (congrArg Prod.snd heq).symm
      subst hpk hpv
      rw [mergeSub_cons_none, mergeSub_not_mem _ _ _ hnd.1,
        assocLookup_erase_self _ _ hsub]
    · cases pv with
      | none =>
        rw [mergeSub_cons_none]
        exact ih _ _ (keysNodup_erase _ _ hsub) hnd.2 hr
      | some w =>
        rw [mergeSub_cons_some]
        exact ih _ _ (keysNodup_set _ _ _ hsub) hnd.2 hr

theorem applyUpd_lookup_ne {cfg : Config} {p : String × PVal} {cfg2 : Config}
    {k : String} (h : applyUpd cfg p = some cfg2) (hk : k ≠ p.1) :
    assocLookup cfg2 k = assocLookup cfg k := by
  rcases p with ⟨pk, pv⟩
  have hk2 : pk ≠ k := fun hc => hk hc.symm
  cases pv with
  | null =>
    rw [applyUpd] at h
    have h2 : cfg2 = assocErase cfg pk := (Option.some.inj h).symm
    rw [h2, assocLookup_erase_ne _ _ _ hk2]
  | prim v =>
    rw [applyUpd] at h
    have h2 : cfg2 = assocSet cfg pk (.prim v) := (Option.some.inj h).symm
    rw [h2, assocLookup_set_ne _ _ _ _ hk2]
  | dict m =>
    cases m with
    | nil =>
      rw [applyUpd] at h
      have h2 : cfg2 = cfg := (Option.some.inj h).symm
      rw [h2]
    | cons q qs =>
      rw [applyUpd] at h
      cases hl : assocLookup cfg pk with
      | none => rw [hl] at h; cases h
      | some cv =>
        cases cv with
        | prim w => rw [hl] at h; cases h
        | dict sub =>
          rw [hl] at h
          have h2 : cfg2 = assocSet cfg pk (.dict (mergeSub sub (q :: qs))) :=
            (Option.some.inj h).symm
          rw [h2, assocLookup_set_ne _ _ _ _ hk2]

theorem applyUpd_wf {cfg : Config} {p : String × PVal} {cfg2 : Config}
    (hnd : keysNodup cfg) (hwf : nestedWf cfg) (h : applyUpd cfg p = some cfg2) :
    keysNodup cfg2 ∧ nestedWf cfg2 := by
  rcases p with ⟨pk, pv⟩
  cases pv with
  | null =>
    rw [applyUpd] at h
    have h2 : cfg2 = assocErase cfg pk := (Option.some.inj h).symm
    subst h2
    refine ⟨keysNodup_erase _ _ hnd, ?_⟩
    intro q hq
    exact hwf q (mem_of_erase _ _ _ hq)
  | prim v =>
    rw [applyUpd] at h
    have h2 : cfg2 = assocSet cfg pk (.prim v) := (Option.some.inj h).symm
    subst h2
    refine ⟨keysNodup_set _ _ _ hnd, ?_⟩
    intro q hq
    rcases mem_of_set _ _ _ _ hq with rfl | hmem
    · trivial
    · exact hwf q hmem
  | dict m =>
    cases m with
    | nil =>
      rw [applyUpd] at h
      have h2 : cfg2 = cfg := (Option.some.inj h).symm
      subst h2
      exact ⟨hnd, hwf⟩
    | cons q qs =>
      rw [applyUpd] at h
      cases hl : assocLookup cfg pk with
      | none => rw [hl] at h; cases h
      | some cv =>
        cases cv with
        | prim w => rw [hl] at h; cases h
        | dict sub =>
          rw [hl] at h
          have h2 : cfg2 = assocSet cfg pk (.dict (mergeSub sub (q :: qs))) :=
            (Option.some.inj h).symm
          subst h2
          have hsub : keysNodup sub := hwf _ (assocLookup_mem _ _ _ hl)
          refine ⟨keysNodup_set _ _ _ hnd, ?_⟩
          intro r hr
          rcases mem_of_set _ _ _ _ hr with rfl | hmem
          · exact keysNodup_mergeSub _ _ hsub
          · exact hwf r hmem

theorem update_config_cons {cfg : Config} {p : String × PVal}
    {rest : List (String × PVal)} {cfg' : Config}
    (h : update_config cfg (p :: rest) = some cfg') :
    ∃ c1, applyUpd cfg p = some c1 ∧ update_config c1 rest = some cfg' := by
  rw [update_config] at h
  cases ha : applyUpd cfg p with
  | none => rw [ha] at h; cases h
  | some c1 =>
    rw [ha] at h
    exact ⟨c1, rfl, h⟩

theorem update_config_not_mem :
    ∀ (pc : List (String × PVal)) (c cfg' : Config) (k : String),
      update_config c pc = some cfg' → k ∉ pc.map Prod.fst →
      assocLookup cfg' k = assocLookup c k := by
  intro pc
  induction pc with
  | nil =>
    intro c cfg' k h _
    have h2 : cfg' = c := (Option.some.inj h).symm
    rw [h2]
  | cons p rest ih =>
    intro c cfg' k h hk
    rcases update_config_cons h with ⟨c1, ha, hrest⟩
    rw [List.map_cons] at hk
    have hk1 : k ≠ p.1 := by
      intro hc
      exact hk (by rw [hc]; exact List.mem_cons_self _ _)
    rw [ih c1 cfg' k hrest (fun hc => hk (List.mem_cons_of_mem _ hc)),
      applyUpd_lookup_ne ha hk1]

theorem update_config_wf :
    ∀ (pc : List (String × PVal)) (c cfg' : Config),
      keysNodup c → nestedWf c → update_config c pc = some cfg' →
      keysNodup cfg' ∧ nestedWf cfg' := by
  intro pc
  induction pc with
  | nil =>
    intro c cfg' hnd hwf h
    have h2 : cfg' = c := (Option.some.inj h).symm
    rw [h2]
    exact ⟨hnd, hwf⟩
  | cons p rest ih =>
    intro c cfg' hnd hwf h
    rcases update_config_cons h with ⟨c1, ha, hrest⟩
    rcases applyUpd_wf hnd hwf ha with ⟨hnd1, hwf1⟩
    exact ih c1 cfg' hnd1 hwf1 hrest

/-- C10: `update_config` semantics.  For a well-formed config (unique keys
at both levels) and a partial config with unique keys that applies
successfully: a scalar value is stored, a `None` value removes the key, a
dict value is merged per-subkey into the existing nested mapping (with
`None` subvalues deleting and unnamed subkeys untouched), and every
top-level key not named in the partial config keeps its value. -/
theorem c10_update_config (pc : List (String × PVal)) :
    ∀ (cfg cfg' : Config), keysNodup cfg → nestedWf cfg → keysNodup pc →
    update_config cfg pc = some cfg' →
    (∀ k v, (k, PVal.prim v) ∈ pc → assocLookup cfg' k = some (.prim v))
    ∧ (∀ k, (k, PVal.null) ∈ pc → assocLookup cfg' k = none)
    ∧ (∀ k m sub, (k, PVal.dict m) ∈ pc → (m.map Prod.fst).Nodup →
        assocLookup cfg k = some (.dict sub) →
        ∃ sub', assocLookup cfg' k = some (.dict sub') ∧
          (∀ sk v, (sk, some v) ∈ m → assocLookup sub' sk = some v) ∧
          (∀ sk, (sk, (none : Option ℤ)) ∈ m → assocLookup sub' sk = none) ∧
          (∀ sk, sk ∉ m.map Prod.fst → assocLookup sub' sk = assocLookup sub sk))
    ∧ (∀ k, k ∉ pc.map Prod.fst → assocLookup cfg' k = assocLookup cfg k) := by
  induction pc with
  | nil =>
    intro cfg cfg' _ _ _ h
    have h2 : cfg' = cfg := (Option.some.inj h).symm
    subst h2
    refine ⟨?_, ?_, ?_, ?_⟩
    · intro k v hm; cases hm
    · intro k hm; cases hm
    · intro k m sub hm; cases hm
    · intro k _; rfl
  | cons p rest ih =>
    intro cfg cfg' hnd hwf hpc h
    rcases update_config_cons h with ⟨c1, ha, hrest⟩
    rcases applyUpd_wf hnd hwf ha with ⟨hnd1, hwf1⟩
    rw [keysNodup, List.map_cons, List.nodup_cons] at hpc
    have ihr := ih c1 cfg' hnd1 hwf1 hpc.2 hrest
    refine ⟨?_, ?_, ?_, ?_⟩
    · intro k v hm
      rcases List.mem_cons.mp hm with heq | hr
      · subst heq
        rw [applyUpd] at ha
        have hc1 : c1 = assocSet cfg k (.prim v) := (Option.some.inj ha).symm
        rw [update_config_not_mem rest c1 cfg' k hrest hpc.1, hc1,
          assocLookup_set_self]
      · exact ihr.1 k v hr
    · intro k hm
      rcases List.mem_cons.mp hm with heq | hr
      · subst heq
        rw [applyUpd] at ha
        have hc1 : c1 = assocErase cfg k := (Option.some.inj ha).symm
        rw [update_config_not_mem rest c1 cfg' k hrest hpc.1, hc1,
          assocLookup_erase_self _ _ hnd]
      · exact ihr.2.1 k hr
    · intro k m sub hm hmnd hsub
      rcases List.mem_cons.mp hm with heq | hr
      · subst heq
        cases m with
        | nil =>
          rw [applyUpd] at ha
          have hc1 : c1 = cfg := (Option.some.inj ha).symm
          refine ⟨sub, ?_, ?_, ?_, fun sk _ => rfl⟩
          · rw [update_config_not_mem rest c1 cfg' k hrest hpc.1, hc1]
            exact hsub
          · intro sk v hmm; cases hmm
          · intro sk hmm; cases hmm
        | cons q qs =>
          rw [applyUpd] at ha
          rw [hsub] at ha
          have hc1 : c1 = assocSet cfg k (.dict (mergeSub sub (q :: qs))) :=
            (Option.some.inj ha).symm
          have hsubnd : keysNodup sub := hwf _ (assocLookup_mem _ _ _ hsub)
          refine ⟨mergeSub sub (q :: qs), ?_, ?_, ?_, ?_⟩
          · rw [update_config_not_mem rest c1 cfg' k hrest hpc.1, hc1,
              assocLookup_set_self]
          · intro sk v hmm
            exact mergeSub_lookup_some _ _ _ _ hmnd hmm
          · intro sk hmm
            exact mergeSub_lookup_none _ _ _ hsubnd hmnd hmm
          · intro sk hsk
            exact mergeSub_not_mem _ _ _ hsk
      · have hk1 : k ≠ p.1 := by
          intro hc
          apply hpc.1
          rw [← hc]
          exact List.mem_map.mpr ⟨(k, PVal.dict m), hr, rfl⟩
        refine ihr.2.2.1 k m sub hr hmnd ?_
        rw [applyUpd_lookup_ne ha hk1]
        exact hsub
    · intro k hk
      rw [List.map_cons] at hk
      have hk1 : k ≠ p.1 := by
        intro hc
        exact hk (by rw [hc]; exact List.mem_cons_self _ _)
      rw [ihr.2.2.2 k (fun hc => hk (List.mem_cons_of_mem _ hc)),
        applyUpd_lookup_ne ha hk1]

/-- C10 witness: a concrete update exercising all four cases. -/
theorem c10_witness :
    assocLookup [("a", CVal.prim 5), ("t", CVal.dict [("b", 7)])] "a" =
      some (CVal.prim 5) ∧
    assocLookup [("a", CVal.prim 5), ("t", CVal.dict [("b", 7)])] "z" = none ∧
    ∃ sub', assocLookup [("a", CVal.prim 5), ("t", CVal.dict [("b", 7)])] "t" =
        some (CVal.dict sub') ∧
      assocLookup sub' "b" = some 7 ∧ assocLookup sub' "c" = none := by
  have h := c10_update_config
    [("a", PVal.prim 5), ("t", PVal.dict [("b", some 7), ("c", none)]), ("z", PVal.null)]
    [("a", CVal.prim 1), ("t", CVal.dict [("b", 2), ("c", 3)])]
    [("a", CVal.prim 5), ("t", CVal.dict [("b", 7)])]
    (by unfold keysNodup; decide)
    (by
      intro p hp
      rcases List.mem_cons.mp hp with rfl | hp
      · trivial
      · rcases List.mem_cons.mp hp with rfl | hp
        · decide
        · cases hp)
    (by unfold keysNodup; decide) (by decide)
  refine ⟨h.1 "a" 5 (by decide), h.2.1 "z" (by decide), ?_⟩
  rcases h.2.2.1 "t" [("b", some 7), ("c", none)] [("b", 2), ("c", 3)]
    (by decide) (by decide) (by decide) with ⟨sub', h1, h2, h3, _⟩
  exact ⟨sub', h1, h2 "b" 7 (by decide), h3 "c" (by decide)⟩

end Tiktorch
